import Mathlib

/-!
Verification of the ensemble SHAP-attribution engine of `rih/shapplot.py`
(repository `vengroff/rihdata`).

The development shallowly embeds the numeric core of the file:

* the bootstrap sampler (`gdf.sample(frac=0.8, random_state=s)`, lines 32-34),
* the per-run force-frame assembly of `shap_force` (lines 44-73), with the
  external regressor / explainer outputs (`y_hat`, `shap_values`,
  `expected_value`) taken as inputs of the embedding,
* the per-feature consistency assertion of `main` (lines 146-151),
* the grouped statistics of `plot_shap_force` (lines 228-242), and
* the axis range policy (lines 298-307).

Machine floats are modelled as exact rationals extended with the IEEE-754
special values (`PFloat`), which is faithful for the special-value behaviour
the program relies on (division by zero, NaN propagation); rounding error is
not modelled because no verified statement depends on it.
-/

/-- Model of an IEEE-754 double: an exact finite value, the two infinities,
or NaN.  Rounding of finite arithmetic is not modelled. -/
inductive PFloat where
  | finite : ℚ → PFloat
  | inf : PFloat
  | neginf : PFloat
  | nan : PFloat
deriving DecidableEq

/-- IEEE negation. -/
def PFloat.neg : PFloat → PFloat
  | .finite q => .finite (-q)
  | .inf => .neginf
  | .neginf => .inf
  | .nan => .nan

/-- IEEE addition (finite arithmetic exact). -/
def PFloat.add : PFloat → PFloat → PFloat
  | .nan, _ => .nan
  | _, .nan => .nan
  | .inf, .neginf => .nan
  | .neginf, .inf => .nan
  | .inf, _ => .inf
  | _, .inf => .inf
  | .neginf, _ => .neginf
  | _, .neginf => .neginf
  | .finite a, .finite b => .finite (a + b)

/-- IEEE subtraction. -/
def PFloat.sub (a b : PFloat) : PFloat := PFloat.add a (PFloat.neg b)

/-- IEEE multiplication (finite arithmetic exact). -/
def PFloat.mul : PFloat → PFloat → PFloat
  | .nan, _ => .nan
  | _, .nan => .nan
  | .inf, .finite b => if b = 0 then .nan else if 0 < b then .inf else .neginf
  | .finite a, .inf => if a = 0 then .nan else if 0 < a then .inf else .neginf
  | .neginf, .finite b => if b = 0 then .nan else if 0 < b then .neginf else .inf
  | .finite a, .neginf => if a = 0 then .nan else if 0 < a then .neginf else .inf
  | .inf, .inf => .inf
  | .inf, .neginf => .neginf
  | .neginf, .inf => .neginf
  | .neginf, .neginf => .inf
  | .finite a, .finite b => .finite (a * b)

/-- IEEE division, as numpy performs it on float64 columns: a nonzero finite
value divided by (positive) zero is a signed infinity, zero divided by zero
is NaN, and no exception is raised. -/
def PFloat.div : PFloat → PFloat → PFloat
  | .nan, _ => .nan
  | _, .nan => .nan
  | .inf, .finite _ => .inf
  | .neginf, .finite _ => .neginf
  | .inf, .inf => .nan
  | .inf, .neginf => .nan
  | .neginf, .inf => .nan
  | .neginf, .neginf => .nan
  | .finite _, .inf => .finite 0
  | .finite _, .neginf => .finite 0
  | .finite a, .finite b =>
      if b = 0 then
        if a = 0 then .nan else if 0 < a then .inf else .neginf
      else .finite (a / b)

/-! ## Sampler (`shapplot.py` lines 32-34)

`gdf_cbsa_bg.sample(frac=0.8, random_state=random_state)` asks pandas for a
subsample of `round(0.8 * N)` rows (pandas computes `round(frac * len)`),
drawn without replacement by taking a prefix of a seed-determined
permutation of the row positions.  The pseudo-random permutation produced by
`numpy` from the integer `random_state` is abstracted as a function
parameter `perm`; every property proved below holds for every function that
returns a permutation of the positions, which the numpy generator does. -/

/-- Number of rows pandas selects for `sample(frac=0.8)` on `n` rows:
`round(0.8 * n)`.  Since `4n/5` is never half-way between two integers this
equals `⌊(8n + 5) / 10⌋`. -/
def sampleSize (n : Nat) : Nat := (8 * n + 5) / 10

/-- `perm` is a family of position permutations: for every seed `s` and
population size `n`, `perm s n` is a permutation of `0, …, n-1`.  This is the
contract of `numpy.random.RandomState(s).permutation(n)`, which pandas uses
for sampling without replacement. -/
def IsPermFn (perm : Nat → Nat → List Nat) : Prop :=
  ∀ s n, (perm s n).Perm (List.range n)

/-- A concrete member of `IsPermFn` used to evaluate the sampler on explicit
inputs (the identity permutation). -/
def identityPerm : Nat → Nat → List Nat := fun _ n => List.range n

/-- `DataFrame.sample(frac=0.8, replace=False, random_state=s)`: select the
first `sampleSize n` positions of the seed-determined permutation.  pandas
raises (`None` here) only when asked for more rows than the population
without replacement, which `frac=0.8` never does. -/
def pandasSample (perm : Nat → Nat → List Nat) (s : Nat) (rows : List α) :
    Option (List α) :=
  if sampleSize rows.length > rows.length then none
  else some (((perm s rows.length).take (sampleSize rows.length)).filterMap
    (fun i => rows.get? i))

/-- `np.random.default_rng(seed).integers(..., size=(k,))` (`main`, lines
111-112): the `k` per-run seeds are a deterministic stream of the master
seed, abstracted as a generator function `gen`. -/
def runSeeds (gen : Nat → Nat → Nat) (seed k : Nat) : List Nat :=
  (List.range k).map (gen seed)

/-- The ensemble's per-run samples (`main` lines 114-117 feeding
`shap_force` line 33): run `i` samples with seed `gen seed i`. -/
def ensembleSamples (gen : Nat → Nat → Nat) (perm : Nat → Nat → List Nat)
    (seed k : Nat) (rows : List α) : List (Option (List α)) :=
  (runSeeds gen seed k).map (fun s => pandasSample perm s rows)

/-! ## Per-run force frame (`shap_force`, lines 44-73)

The outputs of the external regressor and explainer (`xgboost` /
`shap.TreeExplainer`) are taken as inputs of the embedding: the prediction
vector `y_hat`, the attribution matrix `shap_values` and the scalar
`expected_value`.  `shap_force` then assembles one output row per sampled
input row; line 59 binds the reconstruction residual
`df_forces.sum(axis="columns") + expected_value - y` to `check`, which is
never used afterwards. -/

/-- One sampled input row after `reset_index(names="original_index")`:
its original identity, its feature values and its sample weight. -/
structure SampledRow where
  original_index : Nat
  feats : List ℚ
  weight : ℚ
deriving DecidableEq

/-- One row of the frame returned by `shap_force` (lines 52-73): SHAP
columns, raw feature columns, relative-SHAP columns, prediction, baseline,
original identity, weight and the run's seed. -/
structure ForceRow where
  shap : List ℚ
  feats : List ℚ
  relShap : List PFloat
  y_hat : ℚ
  expected_value : ℚ
  original_index : Nat
  weight : ℚ
  random_state : Nat
deriving DecidableEq

/-- Line 59: the per-row reconstruction residual, computed against the
regression target `y` (not against the prediction `y_hat`). -/
def reconCheck (shap_values : List (List ℚ)) (expected_value : ℚ)
    (y : List ℚ) : List ℚ :=
  (shap_values.zip y).map (fun p => p.1.sum + expected_value - p.2)

/-- Lines 52-73 without the residual: per row, keep the SHAP values, copy
the raw feature values, divide each SHAP value by the row's prediction
(lines 63-65, numpy float semantics), and attach prediction, baseline,
original index, weight and seed. -/
def assembleForces (shap_values : List (List ℚ)) (expected_value : ℚ)
    (rows : List SampledRow) (y_hat : List ℚ) (random_state : Nat) :
    List ForceRow :=
  ((shap_values.zip rows).zip y_hat).map fun p =>
    { shap := p.1.1
      feats := p.1.2.feats
      relShap := p.1.1.map (fun s => PFloat.div (.finite s) (.finite p.2))
      y_hat := p.2
      expected_value := expected_value
      original_index := p.1.2.original_index
      weight := p.1.2.weight
      random_state := random_state }

/-- `shap_force` after the external fit/explain calls: the residual of line
59 is computed and bound, but the returned frame does not depend on it and
no code path aborts on it. -/
def shapForce (shap_values : List (List ℚ)) (expected_value : ℚ)
    (rows : List SampledRow) (y : List ℚ) (y_hat : List ℚ)
    (random_state : Nat) : Option (List ForceRow) :=
  let _check := reconCheck shap_values expected_value y
  some (assembleForces shap_values expected_value rows y_hat random_state)

/-! ## Per-feature consistency assertion (`main`, lines 146-151)

`df_shap_forces.groupby("original_index")[[frac]].apply(λ g: len(g[frac].unique()) == 1)`
followed by `assert same_fraction.all()`: for each distinct
`original_index`, the feature-fraction values seen across runs must be a
single value. -/

/-- The assertion of lines 148-151, on the projected columns
`(original_index, frac_feature)`. -/
def sameFraction (ps : List (Nat × ℚ)) : Bool :=
  ((ps.map Prod.fst).dedup).all fun k =>
    (((ps.filter (fun r => decide (r.1 = k))).map Prod.snd).dedup).length == 1

/-! ## Grouped statistics (`plot_shap_force`, lines 228-242)

`groupby(["original_index", total_owner_occupied, frac]).agg(["mean","std"])
.reset_index().sort_values(frac)` followed by `upper = mean + 2*std` and
`lower = mean - 2*std`.  pandas `std` is the `ddof=1` sample standard
deviation, NaN for a single observation; the square root of the backend is
abstracted as a function parameter `sq`. -/

/-- One record of the long-form table restricted to the columns the
aggregation reads: original identity, auxiliary weight
(`util.VARIABLE_TOTAL_OWNER_OCCUPIED`), feature fraction, and the (possibly
relative) SHAP value. -/
structure AggRecord where
  original_index : Nat
  weight : ℚ
  fv : ℚ
  shap : ℚ
deriving DecidableEq

/-- The `groupby` key of line 229: `(original_index, weight, frac_feature)`. -/
def aggKey (r : AggRecord) : Nat × ℚ × ℚ := (r.original_index, r.weight, r.fv)

/-- Arithmetic mean, as pandas computes it for a nonempty group. -/
def listMean (l : List ℚ) : ℚ := l.sum / l.length

/-- `ddof=1` sample variance of a group, exact over ℚ. -/
def sampleVar (l : List ℚ) : ℚ :=
  (l.map (fun x => (x - listMean l) ^ 2)).sum / ((l.length : ℚ) - 1)

/-- pandas `std` of a group: NaN for a single observation, otherwise the
backend's square root of the `ddof=1` variance (`sq` abstracts `sqrt`). -/
def stdOf (sq : ℚ → ℚ) (l : List ℚ) : PFloat :=
  if l.length ≤ 1 then .nan else .finite (sq (sampleVar l))

/-- One row of `df_stats_by_original_index` after lines 228-242. -/
structure StatsRow where
  original_index : Nat
  weight : ℚ
  fv : ℚ
  mean : ℚ
  std : PFloat
  lower : PFloat
  upper : PFloat
deriving DecidableEq

/-- The distinct group keys, in order of first appearance. -/
def aggKeys (records : List AggRecord) : List (Nat × ℚ × ℚ) :=
  (records.map aggKey).dedup

/-- The SHAP values of the group with key `k`. -/
def groupVals (records : List AggRecord) (k : Nat × ℚ × ℚ) : List ℚ :=
  (records.filter (fun r => decide (aggKey r = k))).map AggRecord.shap

/-- The statistics row of one group (lines 230-232 and 237-242): mean,
`ddof=1` std, and `mean ± 2·std` computed in float arithmetic. -/
def statsOfGroup (sq : ℚ → ℚ) (k : Nat × ℚ × ℚ) (vs : List ℚ) : StatsRow :=
  { original_index := k.1
    weight := k.2.1
    fv := k.2.2
    mean := listMean vs
    std := stdOf sq vs
    lower := PFloat.sub (.finite (listMean vs))
      (PFloat.mul (.finite 2) (stdOf sq vs))
    upper := PFloat.add (.finite (listMean vs))
      (PFloat.mul (.finite 2) (stdOf sq vs)) }

/-- Insertion step of an insertion sort by a boolean relation; used to model
the sorted output of pandas (`sort_values` / sorted quantile input). -/
def insertLe (le : α → α → Bool) (x : α) : List α → List α
  | [] => [x]
  | y :: t => if le x y then x :: y :: t else y :: insertLe le x t

/-- Insertion sort by a boolean relation. -/
def sortLe (le : α → α → Bool) (l : List α) : List α :=
  l.foldr (insertLe le) []

/-- The comparison used by `sort_values(f"frac_{feature}")`. -/
def fvLe (a b : StatsRow) : Bool := decide (a.fv ≤ b.fv)

/-- Lines 228-242: one statistics row per distinct
`(original_index, weight, frac_feature)` key, output sorted by the feature
fraction ascending.  (`sort_values` uses an unstable quicksort, so the
relative order of rows with equal fraction is unspecified in pandas; only
the fraction ordering is modelled.) -/
def aggStats (sq : ℚ → ℚ) (records : List AggRecord) : List StatsRow :=
  sortLe fvLe ((aggKeys records).map fun k =>
    statsOfGroup sq k (groupVals records k))

/-- Lines 146-151 followed by the aggregation: `main` asserts the
per-original-index fraction consistency before the statistics for the
feature are computed; a failed assertion aborts (`none`). -/
def mainFeatureStep (sq : ℚ → ℚ) (records : List AggRecord) :
    Option (List StatsRow) :=
  if sameFraction (records.map fun r => (r.original_index, r.fv)) then
    some (aggStats sq records)
  else none

/-! ## Axis range policy (`plot_shap_force`, lines 234-235 and 298-307)

`min_force` / `max_force` are the minimum and maximum of the aggregated
means (lines 234-235).  In absolute mode, lines 306-307 apply Python float
floor-division: `(x // 10_000) * 10_000 ± 20_000`.  In relative mode, lines
298-304 conditionally blend in the 98th / 2nd percentile and then force a
minimum dynamic range. -/

/-- Python `x // b` on floats: `floor(x / b)` as a number. -/
def pyFloorDiv (a b : ℚ) : ℚ := ((⌊a / b⌋ : ℤ) : ℚ)

/-- Lines 306-307 (absolute mode): bucket the extreme means to multiples of
10000 and pad by 20000.  Returns `(min_force, max_force)`. -/
def rangeAbs (min_mean max_mean : ℚ) : ℚ × ℚ :=
  (pyFloorDiv min_mean 10000 * 10000 - 20000,
   pyFloorDiv max_mean 10000 * 10000 + 20000)

/-- Maximum of the aggregated means (line 235); only meaningful for a
nonempty list, like the pandas `max` it models. -/
def maxOf (l : List ℚ) : ℚ := l.foldl max (l.headD 0)

/-- Minimum of the aggregated means (line 234). -/
def minOf (l : List ℚ) : ℚ := l.foldl min (l.headD 0)

/-- The values sorted ascending, as numpy sorts them before indexing a
quantile. -/
def sortedQ (l : List ℚ) : List ℚ := sortLe (fun a b => decide (a ≤ b)) l

/-- `Series.quantile(q, 'higher')`: the sorted value at index
`⌈q * (n - 1)⌉`. -/
def quantileHigher (q : ℚ) (l : List ℚ) : ℚ :=
  (((sortedQ l).get? (Int.toNat ⌈q * ((l.length : ℚ) - 1)⌉)).getD 0)

/-- `Series.quantile(q, 'lower')`: the sorted value at index
`⌊q * (n - 1)⌋`. -/
def quantileLower (q : ℚ) (l : List ℚ) : ℚ :=
  (((sortedQ l).get? (Int.toNat ⌊q * ((l.length : ℚ) - 1)⌋)).getD 0)

/-- Lines 298-304 (relative mode), on the list of aggregated means.
Returns `(min_force, max_force)`. -/
def rangeRel (means : List ℚ) : ℚ × ℚ :=
  let mx0 := maxOf means
  let mn0 := minOf means
  let mx1 := if mx0 > 1/2 then max (1/2) (quantileHigher (98/100) means)
             else mx0
  let mn1 := if mn0 < -(1/2) then min (-(1/2)) (quantileLower (2/100) means)
             else mn0
  (min mn1 (-(1/4)), max mx1 (1/4))

/-! ## C1: the reconstruction residual does not gate execution -/

/-- C1 (amended): `shap_force` returns its assembled frame for every input;
the reconstruction residual of line 59 is computed but does not influence
the result (the returned frame does not even depend on the target vector
`y`, the only input the residual reads beyond the attributions and the
baseline), and no abort path exists. -/
theorem shapForce_never_aborts (shap_values : List (List ℚ))
    (expected_value : ℚ) (rows : List SampledRow) (y y' y_hat : List ℚ)
    (random_state : Nat) :
    shapForce shap_values expected_value rows y y_hat random_state =
      some (assembleForces shap_values expected_value rows y_hat
        random_state) ∧
    shapForce shap_values expected_value rows y y_hat random_state =
      shapForce shap_values expected_value rows y' y_hat random_state :=
  ⟨rfl, rfl⟩

/-- C1 (counterexample to the claim as stated): a run whose single row has
residual 1000 — far beyond any floating-point tolerance — still returns an
assembled frame instead of aborting. -/
theorem shapForce_residual_cex :
    reconCheck [[1000]] 0 [0] = [1000] ∧
    shapForce [[1000]] 0 [⟨0, [1], 1⟩] [0] [1] 7 ≠ none := by
  constructor
  · simp [reconCheck]
  · simp [shapForce]

/-! ## C7 / C10: absolute-mode range policy -/

/-- C7: in absolute mode the bounds are
`floor(mean/10000)*10000 ∓ 20000`, and on the mean range `[12345, 67890]`
the policy returns exactly `(-10000, 80000)`. -/
theorem rangeAbs_formula (mn mx : ℚ) :
    rangeAbs mn mx =
      ((⌊mn / 10000⌋ : ℚ) * 10000 - 20000,
       (⌊mx / 10000⌋ : ℚ) * 10000 + 20000) ∧
    rangeAbs 12345 67890 = (-10000, 80000) := by
  refine ⟨rfl, ?_⟩
  have h1 : (⌊(12345 : ℚ) / 10000⌋ : ℤ) = 1 := by
    norm_num [Int.floor_eq_iff]
  have h2 : (⌊(67890 : ℚ) / 10000⌋ : ℤ) = 6 := by
    norm_num [Int.floor_eq_iff]
  simp [rangeAbs, pyFloorDiv, h1, h2]
  norm_num

/-- C10: in absolute mode both bounds are integer multiples of 10000 and
leave strictly more than 10000 of headroom beyond the extreme means. -/
theorem rangeAbs_headroom (mn mx : ℚ) :
    (∃ a : ℤ, (rangeAbs mn mx).1 = (a : ℚ) * 10000) ∧
    (∃ b : ℤ, (rangeAbs mn mx).2 = (b : ℚ) * 10000) ∧
    (rangeAbs mn mx).2 - mx > 10000 ∧
    mn - (rangeAbs mn mx).1 > 10000 := by
  have hmxlt : mx < ((⌊mx / 10000⌋ : ℚ) + 1) * 10000 := by
    have h := Int.lt_floor_add_one (mx / 10000)
    have h10 : (0 : ℚ) < 10000 := by norm_num
    calc mx = mx / 10000 * 10000 := by field_simp
    _ < ((⌊mx / 10000⌋ : ℚ) + 1) * 10000 := by
        exact mul_lt_mul_of_pos_right h h10
  have hmnge : (⌊mn / 10000⌋ : ℚ) * 10000 ≤ mn := by
    have h := Int.floor_le (mn / 10000)
    have h10 : (0 : ℚ) < 10000 := by norm_num
    calc (⌊mn / 10000⌋ : ℚ) * 10000 ≤ mn / 10000 * 10000 :=
      mul_le_mul_of_nonneg_right h (le_of_lt h10)
    _ = mn := by field_simp
  refine ⟨⟨⌊mn / 10000⌋ - 2, ?_⟩, ⟨⌊mx / 10000⌋ + 2, ?_⟩, ?_, ?_⟩
  · simp only [rangeAbs, pyFloorDiv]
    push_cast
    ring
  · simp only [rangeAbs, pyFloorDiv]
    push_cast
    ring
  · simp only [rangeAbs, pyFloorDiv]
    nlinarith [hmxlt]
  · simp only [rangeAbs, pyFloorDiv]
    nlinarith [hmnge]

/-! ## C9: the sampler on an empty row set -/

/-- C9 (amended): on an empty input row set the sampler returns an empty
sample for every permutation family and every seed; it does not fail. -/
theorem pandasSample_empty_ok (perm : Nat → Nat → List Nat) (s : Nat) :
    pandasSample (α := ℚ) perm s [] = some [] := by
  simp [pandasSample, sampleSize]

/-- C9 (counterexample to the claim as stated): at master seed 0 the sampler
succeeds on the empty row set, returning the empty sample rather than an
error. -/
theorem pandasSample_empty_cex :
    pandasSample identityPerm 0 ([] : List Nat) = some [] ∧
    some ([] : List Nat) ≠ none := by
  constructor
  · rfl
  · simp

/-! ## C2: sample size and sampling without replacement -/

/-- The pandas sample size never exceeds the population, so the
`frac=0.8` sampler never raises. -/
theorem sampleSize_le (n : Nat) : sampleSize n ≤ n := by
  unfold sampleSize
  omega

/-- Looking up a list of in-range positions keeps the length, and keeps
distinctness when both the positions and the rows are distinct. -/
theorem filterMap_get_spec (rows : List α) :
    ∀ idx : List Nat, (∀ i ∈ idx, i < rows.length) →
      (idx.filterMap (fun i => rows.get? i)).length = idx.length ∧
      (rows.Nodup → idx.Nodup →
        (idx.filterMap (fun i => rows.get? i)).Nodup)
  | [], _ => by simp
  | i :: t, h => by
    have hi : i < rows.length := h i (List.mem_cons_self i t)
    have ht : ∀ j ∈ t, j < rows.length :=
      fun j hj => h j (List.mem_cons_of_mem _ hj)
    have ih := filterMap_get_spec rows t ht
    constructor
    · simp only [List.filterMap_cons, List.get?_eq_get hi]
      simp only [List.length_cons, ih.1]
    · intro hr hnd
      rcases List.nodup_cons.mp hnd with ⟨hit, hndt⟩
      simp only [List.filterMap_cons, List.get?_eq_get hi]
      refine List.nodup_cons.mpr ⟨?_, ih.2 hr hndt⟩
      intro hmem
      rcases List.mem_filterMap.mp hmem with ⟨j, hjt, hj⟩
      have hjlt : j < rows.length := ht j hjt
      rw [List.get?_eq_get hjlt] at hj
      have hget : rows.get ⟨j, hjlt⟩ = rows.get ⟨i, hi⟩ := Option.some.inj hj
      have hfin : (⟨j, hjlt⟩ : Fin rows.length) = ⟨i, hi⟩ :=
        List.nodup_iff_injective_get.mp hr hget
      have : j = i := by simpa using congrArg Fin.val hfin
      exact hit (this ▸ hjt)

/-- C2 (amended): for every permutation family, seed and distinct input
rows, the sampler succeeds and returns `round(0.8 * N)` rows — `⌊0.8·N⌋`
for `N ≡ 0, 3, 4 (mod 5)` and `⌊0.8·N⌋ + 1` for `N ≡ 1, 2 (mod 5)` — drawn
without replacement (no row appears twice). -/
theorem pandasSample_spec (perm : Nat → Nat → List Nat) (h : IsPermFn perm)
    (s : Nat) (rows : List α) (hnd : rows.Nodup) :
    ∃ l, pandasSample perm s rows = some l ∧
      l.length = sampleSize rows.length ∧ l.Nodup := by
  have hsz : sampleSize rows.length ≤ rows.length := sampleSize_le _
  have hperm := h s rows.length
  have hlenp : (perm s rows.length).length = rows.length :=
    hperm.length_eq.trans (List.length_range _)
  have hsub : ∀ i ∈ (perm s rows.length).take (sampleSize rows.length),
      i < rows.length := by
    intro i hi
    have h1 : i ∈ perm s rows.length := List.take_subset _ _ hi
    have h2 : i ∈ List.range rows.length := hperm.mem_iff.mp h1
    exact List.mem_range.mp h2
  have hndidx : ((perm s rows.length).take (sampleSize rows.length)).Nodup :=
    List.Nodup.sublist (List.take_sublist _ _)
      (hperm.nodup_iff.mpr (List.nodup_range _))
  have hlenidx :
      ((perm s rows.length).take (sampleSize rows.length)).length =
        sampleSize rows.length := by
    rw [List.length_take, hlenp]
    exact min_eq_left hsz
  obtain ⟨h1, h2⟩ := filterMap_get_spec rows _ hsub
  refine ⟨_, ?_, h1.trans hlenidx, h2 hnd hndidx⟩
  unfold pandasSample
  rw [if_neg (not_lt.mpr hsz)]

/-- Witness for `pandasSample_spec` at the identity permutation family,
seed 3 and seven distinct rows. -/
theorem pandasSample_spec_witness :
    ∃ l, pandasSample identityPerm 3 (List.range 7) = some l ∧
      l.length = sampleSize (List.range 7).length ∧ l.Nodup :=
  pandasSample_spec identityPerm (fun _ _ => List.Perm.refl _) 3
    (List.range 7) (List.nodup_range 7)

/-- C2 (counterexample to the claim as stated): on `N = 6` rows the sampler
keeps 5 rows — `round(0.8 · 6) = 5` — while `⌊0.8 · 6⌋ = 4`. -/
theorem sample_length_floor_cex :
    pandasSample identityPerm 0 (List.range 6) = some [0, 1, 2, 3, 4] ∧
    sampleSize 6 = 5 ∧ (4 * 6) / 5 = 4 ∧ (5 : Nat) ≠ 4 := by
  decide

/-! ## C3: relative attribution and division by a zero prediction -/

/-- C3 (amended): every assembled row's relative attributions are the
IEEE divisions of its attributions by its prediction; when the prediction is
exactly zero each relative attribution is a non-finite marker (NaN when the
attribution is also zero, a signed infinity otherwise), and no exception is
raised — the run still returns its frame. -/
theorem relShap_semantics (sv : List (List ℚ)) (ev : ℚ)
    (rows : List SampledRow) (y y_hat : List ℚ) (rs : Nat) (fr : ForceRow)
    (hfr : fr ∈ assembleForces sv ev rows y_hat rs) :
    fr.relShap =
      fr.shap.map (fun v => PFloat.div (.finite v) (.finite fr.y_hat)) ∧
    (fr.y_hat = 0 → ∀ r ∈ fr.relShap,
      r = PFloat.nan ∨ r = PFloat.inf ∨ r = PFloat.neginf) ∧
    shapForce sv ev rows y y_hat rs ≠ none := by
  obtain ⟨p, hp, hpe⟩ := List.mem_map.mp hfr
  have hrel : fr.relShap =
      p.1.1.map (fun v => PFloat.div (.finite v) (.finite p.2)) := by
    rw [← hpe]
  have hsh : fr.shap = p.1.1 := by rw [← hpe]
  have hyh : fr.y_hat = p.2 := by rw [← hpe]
  refine ⟨by rw [hrel, hsh, hyh], ?_, by simp [shapForce]⟩
  intro hy r hr
  rw [hrel] at hr
  obtain ⟨v, _, hve⟩ := List.mem_map.mp hr
  rw [hyh] at hy
  rw [← hve, hy]
  by_cases h0 : v = 0
  · left
    simp [PFloat.div, h0]
  · by_cases hpos : 0 < v
    · right
      left
      simp [PFloat.div, h0, hpos]
    · right
      right
      simp [PFloat.div, h0, hpos]

/-- The single row assembled from one sampled row with attribution 1 and
prediction 0: its relative attribution is `+∞`. -/
def fr0 : ForceRow :=
  { shap := [1]
    feats := [1/2]
    relShap := [PFloat.inf]
    y_hat := 0
    expected_value := 0
    original_index := 2
    weight := 1
    random_state := 1 }

/-- Witness for `relShap_semantics` at a concrete run whose one prediction
is exactly zero. -/
theorem relShap_semantics_witness :
    fr0.relShap =
      fr0.shap.map (fun v => PFloat.div (.finite v) (.finite fr0.y_hat)) ∧
    (fr0.y_hat = 0 → ∀ r ∈ fr0.relShap,
      r = PFloat.nan ∨ r = PFloat.inf ∨ r = PFloat.neginf) ∧
    shapForce [[1]] 0 [⟨2, [1/2], 1⟩] [0] [0] 1 ≠ none :=
  relShap_semantics [[1]] 0 [⟨2, [1/2], 1⟩] [0] [0] 1 fr0
    (by norm_num [assembleForces, fr0, PFloat.div])

/-- C3 (counterexample to the claim as stated): with attribution 1 and
prediction exactly 0 the relative attribution is `+∞`, not a NaN marker. -/
theorem relShap_nan_cex :
    (assembleForces [[1]] 0 [⟨2, [1/2], 1⟩] [0] 1).map ForceRow.relShap =
      [[PFloat.inf]] ∧ PFloat.inf ≠ PFloat.nan := by
  constructor
  · norm_num [assembleForces, PFloat.div]
  · decide

/-! ## C4: the per-feature consistency assertion gates aggregation -/

/-- The property the assertion of lines 148-151 checks, on the projected
`(original_index, frac_feature)` columns. -/
def ConsistentPairs (ps : List (Nat × ℚ)) : Prop :=
  ∀ p ∈ ps, ∀ q ∈ ps, p.1 = q.1 → p.2 = q.2

/-- A nonempty list all of whose elements equal `x` deduplicates to `[x]`. -/
theorem dedup_eq_single (l : List ℚ) (x : ℚ) (hne : l ≠ [])
    (hall : ∀ a ∈ l, a = x) : l.dedup = [x] := by
  induction l with
  | nil => exact absurd rfl hne
  | cons a t ih =>
    have hax : a = x := hall a (List.mem_cons_self a t)
    by_cases hte : t = []
    · subst hte
      subst hax
      simp
    · have htall : ∀ b ∈ t, b = x :=
        fun b hb => hall b (List.mem_cons_of_mem _ hb)
      have hat : a ∈ t := by
        obtain ⟨b, hb⟩ := List.exists_mem_of_ne_nil t hte
        have hab : a = b := hax.trans (htall b hb).symm
        exact hab ▸ hb
      rw [List.dedup_cons_of_mem hat]
      exact ih hte htall

/-- The boolean assertion of lines 148-151 holds exactly when every
original row identity carries a single feature-fraction value. -/
theorem sameFraction_iff (ps : List (Nat × ℚ)) :
    sameFraction ps = true ↔ ConsistentPairs ps := by
  unfold sameFraction ConsistentPairs
  rw [List.all_eq_true]
  constructor
  · intro h p hp q hq hpq
    have hk : p.1 ∈ (ps.map Prod.fst).dedup :=
      List.mem_dedup.mpr (List.mem_map_of_mem _ hp)
    have hlen := h _ hk
    rw [beq_iff_eq] at hlen
    obtain ⟨x, hx⟩ := List.length_eq_one.mp hlen
    have hpmem :
        p.2 ∈ (ps.filter (fun r => decide (r.1 = p.1))).map Prod.snd :=
      List.mem_map_of_mem _ (List.mem_filter.mpr ⟨hp, by simp⟩)
    have hqmem :
        q.2 ∈ (ps.filter (fun r => decide (r.1 = p.1))).map Prod.snd :=
      List.mem_map_of_mem _
        (List.mem_filter.mpr ⟨hq, by simp [hpq.symm]⟩)
    have h1 := List.mem_dedup.mpr hpmem
    have h2 := List.mem_dedup.mpr hqmem
    rw [hx, List.mem_singleton] at h1 h2
    rw [h1, h2]
  · intro h k hk
    rw [beq_iff_eq]
    obtain ⟨p, hp, hpk⟩ := List.mem_map.mp (List.mem_dedup.mp hk)
    have hpfil : p ∈ ps.filter (fun r => decide (r.1 = k)) :=
      List.mem_filter.mpr ⟨hp, by simp [hpk]⟩
    have hne : (ps.filter (fun r => decide (r.1 = k))).map Prod.snd ≠ [] := by
      intro hcon
      have hm := List.mem_map_of_mem Prod.snd hpfil
      rw [hcon] at hm
      exact absurd hm (List.not_mem_nil _)
    have hall :
        ∀ a ∈ (ps.filter (fun r => decide (r.1 = k))).map Prod.snd,
          a = p.2 := by
      intro a ha
      obtain ⟨q, hq, hqa⟩ := List.mem_map.mp ha
      obtain ⟨hqps, hqk⟩ := List.mem_filter.mp hq
      rw [decide_eq_true_eq] at hqk
      have : q.2 = p.2 := h q hqps p hp (by rw [hqk, hpk])
      rw [← hqa, this]
    rw [dedup_eq_single _ p.2 hne hall]
    rfl

/-- C4: if every original row identity has a single feature value across
all contributing runs, `main` proceeds to the aggregated statistics; if any
identity carries two distinct feature values, the assertion fails and the
aggregation aborts instead of averaging them. -/
theorem consistency_gate (sq : ℚ → ℚ) (records : List AggRecord) :
    ((∀ r₁ ∈ records, ∀ r₂ ∈ records,
        r₁.original_index = r₂.original_index → r₁.fv = r₂.fv) →
      mainFeatureStep sq records = some (aggStats sq records)) ∧
    (∀ r₁ ∈ records, ∀ r₂ ∈ records,
        r₁.original_index = r₂.original_index → r₁.fv ≠ r₂.fv →
      mainFeatureStep sq records = none) := by
  constructor
  · intro h
    have hsf :
        sameFraction (records.map fun r => (r.original_index, r.fv)) =
          true := by
      rw [sameFraction_iff]
      intro p hp q hq hpq
      obtain ⟨r₁, hr₁, hre₁⟩ := List.mem_map.mp hp
      obtain ⟨r₂, hr₂, hre₂⟩ := List.mem_map.mp hq
      rw [← hre₁, ← hre₂]
      rw [← hre₁, ← hre₂] at hpq
      exact h r₁ hr₁ r₂ hr₂ hpq
    simp [mainFeatureStep, hsf]
  · intro r₁ h1 r₂ h2 hoi hfv
    have hsf :
        ¬ sameFraction (records.map fun r => (r.original_index, r.fv)) =
          true := by
      rw [sameFraction_iff]
      intro hcon
      exact hfv (hcon (r₁.original_index, r₁.fv)
        (List.mem_map_of_mem _ h1) (r₂.original_index, r₂.fv)
        (List.mem_map_of_mem _ h2) hoi)
    simp [mainFeatureStep, Bool.eq_false_iff.mpr hsf]

/-- Witness for `consistency_gate`: a table in which original row 1 appears
with feature values 3 and 4 makes the aggregation abort. -/
theorem consistency_gate_witness :
    mainFeatureStep (fun q => q) [⟨1, 1, 3, 0⟩, ⟨1, 1, 4, 0⟩] = none :=
  (consistency_gate (fun q => q) [⟨1, 1, 3, 0⟩, ⟨1, 1, 4, 0⟩]).2
    ⟨1, 1, 3, 0⟩ (List.mem_cons_self _ _)
    ⟨1, 1, 4, 0⟩ (List.mem_cons_of_mem _ (List.mem_cons_self _ _))
    rfl (by norm_num)

/-! ## C5: determinism of seeds and samples -/

/-- C5: for any deterministic seed stream and permutation family, two
executions with equal master seeds and equal input rows produce identical
run-seed sequences and identical per-run samples; moreover run `i`'s sample
is a function of that run's seed and the input alone. -/
theorem ensemble_determinism (gen : Nat → Nat → Nat)
    (perm : Nat → Nat → List Nat) (seedA seedB k : Nat)
    (rowsA rowsB : List α) (hs : seedA = seedB) (hr : rowsA = rowsB) :
    runSeeds gen seedA k = runSeeds gen seedB k ∧
    ensembleSamples gen perm seedA k rowsA =
      ensembleSamples gen perm seedB k rowsB ∧
    ∀ i, i < k → (ensembleSamples gen perm seedA k rowsA)[i]? =
      some (pandasSample perm (gen seedA i) rowsA) := by
  subst hs
  subst hr
  refine ⟨rfl, rfl, ?_⟩
  intro i hik
  unfold ensembleSamples runSeeds
  rw [List.getElem?_map, List.getElem?_map, List.getElem?_range hik]
  rfl

/-- Witness for `ensemble_determinism` at a concrete seed stream, the
identity permutation family, master seed 11 and three input rows. -/
theorem ensemble_determinism_witness :
    runSeeds (fun s i => s + i) 11 3 = runSeeds (fun s i => s + i) 11 3 ∧
    ensembleSamples (fun s i => s + i) identityPerm 11 3 [(1 : ℚ), 2, 3] =
      ensembleSamples (fun s i => s + i) identityPerm 11 3 [(1 : ℚ), 2, 3] ∧
    (ensembleSamples (fun s i => s + i) identityPerm 11 3
        [(1 : ℚ), 2, 3])[1]? =
      some (pandasSample identityPerm 12 [(1 : ℚ), 2, 3]) := by
  obtain ⟨h1, h2, h3⟩ := ensemble_determinism (fun s i => s + i)
    identityPerm 11 11 3 [(1 : ℚ), 2, 3] [(1 : ℚ), 2, 3] rfl rfl
  exact ⟨h1, h2, h3 1 (by norm_num)⟩

/-! ## C6: grouping key, ordering and confidence bounds of the statistics -/

/-- Membership in an insertion step. -/
theorem mem_insertLe (le : α → α → Bool) (x a : α) :
    ∀ l : List α, a ∈ insertLe le x l ↔ a = x ∨ a ∈ l := by
  intro l
  induction l with
  | nil => simp [insertLe]
  | cons y t ih =>
    unfold insertLe
    by_cases h : le x y = true
    · rw [if_pos h]
      simp [List.mem_cons]
    · rw [if_neg h]
      simp only [List.mem_cons, ih]
      tauto

/-- Inserting into a pairwise-ordered list keeps it pairwise ordered, for a
transitive total boolean relation. -/
theorem pairwise_insertLe (le : α → α → Bool)
    (htr : ∀ a b c, le a b = true → le b c = true → le a c = true)
    (hto : ∀ a b, le a b = true ∨ le b a = true) (x : α) :
    ∀ l : List α, l.Pairwise (fun a b => le a b = true) →
      (insertLe le x l).Pairwise (fun a b => le a b = true) := by
  intro l
  induction l with
  | nil =>
    intro _
    simp [insertLe]
  | cons y t ih =>
    intro hp
    rcases List.pairwise_cons.mp hp with ⟨hy, ht⟩
    unfold insertLe
    by_cases h : le x y = true
    · rw [if_pos h]
      refine List.pairwise_cons.mpr ⟨?_, hp⟩
      intro b hb
      rcases List.mem_cons.mp hb with hb | hb
      · exact hb ▸ h
      · exact htr x y b h (hy b hb)
    · rw [if_neg h]
      refine List.pairwise_cons.mpr ⟨?_, ih ht⟩
      intro b hb
      rcases (mem_insertLe le x b t).mp hb with hb | hb
      · rcases hto x y with hxy | hyx
        · exact absurd hxy h
        · exact hb ▸ hyx
      · exact hy b hb

/-- The insertion sort is pairwise ordered, for a transitive total boolean
relation. -/
theorem pairwise_sortLe (le : α → α → Bool)
    (htr : ∀ a b c, le a b = true → le b c = true → le a c = true)
    (hto : ∀ a b, le a b = true ∨ le b a = true) :
    ∀ l : List α, (sortLe le l).Pairwise (fun a b => le a b = true) := by
  intro l
  induction l with
  | nil => simp [sortLe]
  | cons a t ih => exact pairwise_insertLe le htr hto a _ ih

/-- The insertion sort has the same members as its input. -/
theorem mem_sortLe (le : α → α → Bool) (a : α) :
    ∀ l : List α, a ∈ sortLe le l ↔ a ∈ l := by
  intro l
  induction l with
  | nil => simp [sortLe]
  | cons y t ih =>
    show a ∈ insertLe le y (sortLe le t) ↔ _
    rw [mem_insertLe]
    simp [List.mem_cons, ih]

/-- An insertion step adds one element to the length. -/
theorem length_insertLe (le : α → α → Bool) (x : α) :
    ∀ l : List α, (insertLe le x l).length = l.length + 1 := by
  intro l
  induction l with
  | nil => simp [insertLe]
  | cons y t ih =>
    unfold insertLe
    by_cases h : le x y = true
    · rw [if_pos h]
      simp
    · rw [if_neg h]
      simp [ih]

/-- The insertion sort preserves the length. -/
theorem length_sortLe (le : α → α → Bool) :
    ∀ l : List α, (sortLe le l).length = l.length := by
  intro l
  induction l with
  | nil => rfl
  | cons y t ih =>
    show (insertLe le y (sortLe le t)).length = _
    rw [length_insertLe, ih]
    rfl

/-- C6: every output statistics row aggregates exactly the records sharing
its full `(original_index, weight, feature_value)` key — never records of a
different original row with the same feature value — and carries
`lower = mean − 2·std` and `upper = mean + 2·std`; the output is ordered by
feature value ascending, and there is one row per distinct key. -/
theorem aggStats_spec (sq : ℚ → ℚ) (records : List AggRecord) :
    (∀ row ∈ aggStats sq records,
      row.mean = listMean ((records.filter (fun r =>
        decide (aggKey r = (row.original_index, row.weight, row.fv)))).map
        AggRecord.shap) ∧
      row.std = stdOf sq ((records.filter (fun r =>
        decide (aggKey r = (row.original_index, row.weight, row.fv)))).map
        AggRecord.shap) ∧
      row.lower = PFloat.sub (.finite row.mean)
        (PFloat.mul (.finite 2) row.std) ∧
      row.upper = PFloat.add (.finite row.mean)
        (PFloat.mul (.finite 2) row.std)) ∧
    ((aggStats sq records).map StatsRow.fv).Pairwise (· ≤ ·) ∧
    (aggStats sq records).length = ((records.map aggKey).dedup).length ∧
    (∀ k ∈ (records.map aggKey).dedup, ∃ row ∈ aggStats sq records,
      (row.original_index, row.weight, row.fv) = k) := by
  refine ⟨?_, ?_, ?_, ?_⟩
  · intro row hrow
    rw [aggStats, mem_sortLe] at hrow
    obtain ⟨k, hk, rfl⟩ := List.mem_map.mp hrow
    exact ⟨rfl, rfl, rfl, rfl⟩
  · have htr : ∀ a b c : StatsRow, fvLe a b = true → fvLe b c = true →
        fvLe a c = true := fun a b c hab hbc =>
      decide_eq_true (le_trans (of_decide_eq_true hab)
        (of_decide_eq_true hbc))
    have hto : ∀ a b : StatsRow, fvLe a b = true ∨ fvLe b a = true :=
      fun a b => (le_total a.fv b.fv).imp decide_eq_true decide_eq_true
    exact List.Pairwise.map StatsRow.fv
      (fun a b h => of_decide_eq_true h)
      (pairwise_sortLe fvLe htr hto _)
  · rw [aggStats, length_sortLe, List.length_map]
    rfl
  · intro k hk
    exact ⟨statsOfGroup sq k (groupVals records k),
      (mem_sortLe _ _ _).mpr (List.mem_map_of_mem _ hk), rfl⟩

/-- Two records of the same original row and key across two runs, with
attributions 4 and 6. -/
def recs6 : List AggRecord := [⟨1, 2, 3, 4⟩, ⟨1, 2, 3, 6⟩]

/-- The aggregated row of `recs6` with the identity as backend square root:
mean 5, std 2, bounds 1 and 9. -/
def row6 : StatsRow :=
  ⟨1, 2, 3, 5, .finite 2, .finite 1, .finite 9⟩

/-- Witness for `aggStats_spec`: the concrete aggregation of `recs6`
contains `row6`, whose bounds are `mean ± 2·std`. -/
theorem aggStats_spec_witness :
    row6.mean = listMean ((recs6.filter (fun r =>
      decide (aggKey r = (row6.original_index, row6.weight, row6.fv)))).map
      AggRecord.shap) ∧
    row6.std = stdOf (fun q => q) ((recs6.filter (fun r =>
      decide (aggKey r = (row6.original_index, row6.weight, row6.fv)))).map
      AggRecord.shap) ∧
    row6.lower = PFloat.sub (.finite row6.mean)
      (PFloat.mul (.finite 2) row6.std) ∧
    row6.upper = PFloat.add (.finite row6.mean)
      (PFloat.mul (.finite 2) row6.std) :=
  (aggStats_spec (fun q => q) recs6).1 row6 (by
    norm_num [aggStats, aggKeys, aggKey, groupVals, statsOfGroup, sortLe,
      insertLe, listMean, sampleVar, stdOf, recs6, row6, PFloat.sub,
      PFloat.add, PFloat.mul, PFloat.neg])

/-! ## C8: relative-mode range policy -/

/-- C8 (amended): in relative mode, when the maximal mean exceeds 0.5 the
upper bound becomes the 98th percentile clamped from below at 0.5 (and
symmetrically for the minimal mean and the 2nd percentile); afterwards the
bounds are forced to at least `[−0.25, 0.25]`, and on the mean range
`[-0.1, 0.1]` the policy returns exactly `(-0.25, 0.25)`. -/
theorem rangeRel_spec (means : List ℚ) :
    (rangeRel means).2 =
      max (if maxOf means > 1/2
           then max (1/2) (quantileHigher (98/100) means)
           else maxOf means) (1/4) ∧
    (rangeRel means).1 =
      min (if minOf means < -(1/2)
           then min (-(1/2)) (quantileLower (2/100) means)
           else minOf means) (-(1/4)) ∧
    1/4 ≤ (rangeRel means).2 ∧
    (rangeRel means).1 ≤ -(1/4) ∧
    rangeRel [-(1/10), 1/10] = (-(1/4), 1/4) := by
  have h2 : (rangeRel means).2 =
      max (if maxOf means > 1/2
           then max (1/2) (quantileHigher (98/100) means)
           else maxOf means) (1/4) := rfl
  have h1 : (rangeRel means).1 =
      min (if minOf means < -(1/2)
           then min (-(1/2)) (quantileLower (2/100) means)
           else minOf means) (-(1/4)) := rfl
  refine ⟨h2, h1, ?_, ?_, ?_⟩
  · rw [h2]
    exact le_max_right _ _
  · rw [h1]
    exact min_le_right _ _
  · norm_num [rangeRel, maxOf, minOf, max_def, min_def]

/-- The aggregated means used to refute the percentile-clamp reading: fifty
means of 0 and one mean of 0.6, so the maximum exceeds 0.5 while the 98th
percentile is 0. -/
def L8 : List ℚ := List.replicate 50 0 ++ [3/5]

/-- Folding `max` from 0 over zeros stays 0. -/
theorem foldl_max_rep : ∀ n, List.foldl max (0 : ℚ) (List.replicate n 0) = 0
  | 0 => rfl
  | n + 1 => by
    rw [List.replicate_succ, List.foldl_cons, max_self]
    exact foldl_max_rep n

/-- Inserting another 0 in front of the already-sorted zeros keeps the list
sorted as written. -/
theorem insertLe_zero :
    ∀ n, insertLe (fun a b => decide (a ≤ b)) (0 : ℚ)
      (List.replicate n 0 ++ [3/5]) = List.replicate (n + 1) 0 ++ [3/5]
  | 0 => by norm_num [insertLe]
  | n + 1 => by
    rw [List.replicate_succ, List.cons_append]
    unfold insertLe
    rw [if_pos (by norm_num)]
    simp [List.replicate_succ]

/-- The zeros-then-0.6 list is its own ascending sort. -/
theorem sortedQ_L8 : ∀ n,
    sortedQ (List.replicate n 0 ++ [3/5]) = List.replicate n 0 ++ [3/5]
  | 0 => rfl
  | n + 1 => by
    rw [List.replicate_succ, List.cons_append]
    show insertLe _ (0 : ℚ) (sortedQ (List.replicate n 0 ++ [3/5])) = _
    rw [sortedQ_L8 n, insertLe_zero n, List.replicate_succ, List.cons_append]

/-- The maximum of the means `L8` is 0.6. -/
theorem maxOf_L8 : maxOf L8 = 3/5 := by
  unfold maxOf L8
  rw [show List.replicate 50 (0 : ℚ) ++ [3/5] =
      0 :: (List.replicate 49 (0 : ℚ) ++ [3/5]) by
    rw [show (50 : Nat) = 49 + 1 from rfl, List.replicate_succ,
      List.cons_append]]
  rw [List.headD_cons, List.foldl_cons, max_self, List.foldl_append,
    foldl_max_rep 49, List.foldl_cons, List.foldl_nil]
  exact max_eq_right (by norm_num)

/-- The 98th percentile (interpolation `'higher'`) of the means `L8` is 0:
the index is `⌈0.98 · 50⌉ = 49`, which lands among the zeros. -/
theorem quantileHigher_L8 : quantileHigher (98/100) L8 = 0 := by
  unfold quantileHigher L8
  rw [sortedQ_L8 50]
  have hlen : (List.replicate 50 (0 : ℚ) ++ [3/5]).length = 51 := by
    simp
  rw [hlen]
  have hpos : (98/100 : ℚ) * (((51 : ℕ) : ℚ) - 1) = ((49 : ℤ) : ℚ) := by
    push_cast
    norm_num
  rw [hpos, Int.ceil_intCast]
  rw [show Int.toNat 49 = 49 from rfl]
  rw [List.get?_eq_getElem?, List.getElem?_append_left (by simp),
    List.getElem?_replicate]
  rfl

/-- C8 (counterexample to the claim as stated): on `L8` the maximal mean
0.6 exceeds 0.5 and the 98th percentile is 0, yet the policy returns upper
bound 0.5 — not the percentile (which, forced to at least 0.25, would give
0.25). -/
theorem rangeRel_clamp_cex :
    maxOf L8 > 1/2 ∧ quantileHigher (98/100) L8 = 0 ∧
    (rangeRel L8).2 = 1/2 ∧
    max (quantileHigher (98/100) L8) (1/4) = 1/4 ∧
    ((1 : ℚ)/2) ≠ 1/4 := by
  refine ⟨by rw [maxOf_L8]; norm_num, quantileHigher_L8, ?_,
    by rw [quantileHigher_L8]; norm_num [max_def], by norm_num⟩
  have h2 : (rangeRel L8).2 =
      max (if maxOf L8 > 1/2
           then max (1/2) (quantileHigher (98/100) L8)
           else maxOf L8) (1/4) := rfl
  rw [h2, maxOf_L8, quantileHigher_L8, if_pos (by norm_num)]
  norm_num [max_def]
